import Mathlib

/-!
# Rule document builder (`cmd/rule-engine/modules/rule.go`)

A shallow embedding of the two operations of the module:

* `Rules.Content`   builds the nested `M`/`S` document of a rule collection and
  hands it to the YAML encoder;
* `Rules.PromRules` groups a rule collection by `PromID` through a Go map and
  then ranges over that map.

Go values are embedded as follows.

* `int64` fields are `Int`; the module performs no arithmetic on them, only
  equality tests and decimal formatting, so every statement proved for all
  `Int` holds for the `int64` values in particular.
* A slice is a `List` (a nil slice and an empty slice both range over nothing
  and both have length 0, so both are `[]`).
* A Go map is an association list with unique keys.  The position of an entry
  in the list is an artefact of the embedding: Go exposes a map only through
  lookups and through `range`, whose order is unspecified.  Every place where
  the source ranges over a map is therefore modelled by *all* orders in which
  the entries can be visited.
-/

/-! ## Data model -/

/-- The struct `Prom`. -/
structure Prom where
  ID : Int
  URL : String
deriving DecidableEq, Repr

/-- The struct `Rule`; `Labels` is a `map[string]string`. -/
structure Rule where
  ID : Int
  PromID : Int
  Expr : String
  Op : String
  Value : String
  For : String
  Labels : List (String × String)
  Summary : String
  Description : String
deriving DecidableEq, Repr

/-- The type `Rules`, a slice of `Rule`. -/
abbrev Rules := List Rule

/-- The struct `PromRules`. -/
structure PromRules where
  Prom : Prom
  Rules : Rules
deriving DecidableEq, Repr

/-! ## `Rules.PromRules` -/

/-- The map type `map[int64]Rules` of the local variable `tmp`. -/
abbrev RulesMap := List (Int × Rules)

/-- The comma-ok lookup `v, ok := tmp[id]`: `some v` when `ok`, `none` otherwise. -/
def RulesMap.lookup : RulesMap → Int → Option Rules
  | [], _ => none
  | (k, v) :: rest, id => if k = id then some v else RulesMap.lookup rest id

/-- The assignment `tmp[id] = v`: overwrites the entry of `id`, or adds one. -/
def RulesMap.store : RulesMap → Int → Rules → RulesMap
  | [], id, v => [(id, v)]
  | (k, w) :: rest, id, v =>
    if k = id then (k, v) :: rest else (k, w) :: RulesMap.store rest id v

/-- One iteration of the first loop of `PromRules` (the body of
`for _, rule := range r`). -/
def promRulesStep (tmp : RulesMap) (rule : Rule) : RulesMap :=
  match RulesMap.lookup tmp rule.PromID with
  | some v => RulesMap.store tmp rule.PromID (v ++ [rule])
  | none => RulesMap.store tmp rule.PromID [rule]

/-- The map `tmp` after the first loop of `PromRules`. -/
def promRulesTmp (r : Rules) : RulesMap :=
  r.foldl promRulesStep []

/-- The second loop of `PromRules`, run over the entries of `tmp` in the order
`visit` in which `range tmp` happens to yield them: `data` starts empty and
every entry appends `PromRules{Prom: Prom{ID: id}, Rules: rules}`; the `URL`
field is not set and so holds the zero value `""`. -/
def promRulesData (visit : RulesMap) : List PromRules :=
  visit.foldl (fun data e => data ++ [{ Prom := { ID := e.1, URL := "" }, Rules := e.2 }]) []

/-- Every value `r.PromRules()` can return: one per order in which
`range tmp` can visit the entries of the map. -/
def Rules.PromRulesResults (r : Rules) : List (List PromRules) :=
  (promRulesTmp r).permutations'.map promRulesData

/-- The call `r.PromRules()` can return `data`. -/
def Rules.PromRules (r : Rules) (data : List PromRules) : Prop :=
  data ∈ Rules.PromRulesResults r

instance (r : Rules) (data : List PromRules) : Decidable (Rules.PromRules r data) := by
  unfold Rules.PromRules; infer_instance

/-! ## `Rules.Content` -/

/-- The dynamically typed values (`interface{}`) that `Content` places in its
document: strings, the `map[string]string` of labels, slices `S` and maps `M`.
The entries of a map are listed in the order in which the composite literal
gives them. -/
inductive Value where
  | str (s : String)
  | strMap (m : List (String × String))
  | seq (elems : List Value)
  | map (entries : List (String × Value))

/-- The type `S`, a slice of `interface{}`. -/
abbrev S := List Value

/-- The type `M`, a `map[string]interface{}`. -/
abbrev M := List (String × Value)

/-- The keys present in a map. -/
def M.keys (m : M) : List String :=
  m.map Prod.fst

/-- The comma-ok lookup `v, ok := m[key]`. -/
def M.get : M → String → Option Value
  | [], _ => none
  | (k, v) :: rest, key => if k = key then some v else M.get rest key

/-- The call `strconv.FormatInt(i, 10)`: the decimal digits of the magnitude
of `i`, most significant first, after a minus sign when `i` is negative.  Base
10 is the only base the module asks for. -/
def FormatInt (i : Int) : String :=
  if i < 0 then "-" ++ String.mk (Nat.toDigits 10 i.natAbs)
  else String.mk (Nat.toDigits 10 i.toNat)

/-- The call `strings.Join(elems, sep)`: the first element followed, for every
further element, by the separator and that element; `""` for no elements. -/
def Join : List String → String → String
  | [], _ => ""
  | e :: rest, sep => rest.foldl (fun b s => b ++ sep ++ s) e

/-- The inner literal `M{"rule_id": ..., "prom_id": ..., "summary": ...,
"description": ...}` that `Content` builds for the rule `i`. -/
def contentAnnotations (i : Rule) : M :=
  [ ("rule_id", .str (FormatInt i.ID)),
    ("prom_id", .str (FormatInt i.PromID)),
    ("summary", .str i.Summary),
    ("description", .str i.Description) ]

/-- The literal `M{"alert": ..., "expr": ..., "for": ..., "labels": ...,
"annotations": ...}` that `Content` appends for the rule `i`. -/
def contentRecord (i : Rule) : M :=
  [ ("alert", .str (FormatInt i.ID)),
    ("expr", .str (Join [i.Expr, i.Op, i.Value] " ")),
    ("for", .str i.For),
    ("labels", .strMap i.Labels),
    ("annotations", .map (contentAnnotations i)) ]

/-- The slice `rules` after the loop of `Content`: it starts as `S{}` and every
rule of `r`, in order, appends its record. -/
def contentRules (r : Rules) : S :=
  r.foldl (fun rules i => rules ++ [Value.map (contentRecord i)]) []

/-- The inner literal `M{"name": "ruleengine", "rules": rules}`. -/
def contentGroup (r : Rules) : M :=
  [ ("name", .str "ruleengine"),
    ("rules", .seq (contentRules r)) ]

/-- The value `result` that `Content` passes to the encoder. -/
def contentResult (r : Rules) : M :=
  [ ("groups", .seq [Value.map (contentGroup r)]) ]

/-- The method `Content`.  The encoder `yaml.Marshal` is a parameter: it
returns either the bytes or an error, and `Content` returns what it returns. -/
def Rules.Content {ε β : Type} (Marshal : Value → Except ε β) (r : Rules) : Except ε β :=
  Marshal (Value.map (contentResult r))

/-! ## Key order of the YAML encoder

The encoder of `gopkg.in/yaml.v2` writes a Go map by collecting its keys
(`in.MapKeys()`, in unspecified order), sorting them (`sort.Sort(keys)`) and
writing the entries in the sorted order.  The definitions below follow the
comparison `keyList.Less` for two string keys.  `Less` classifies runes with
`unicode.IsLetter` and `unicode.IsDigit`; the range tables of Go's `unicode`
package are not part of the module, so they are a parameter, and every
statement below holds for every table. -/

/-- The classification of the runes from U+0080 on by Go's `unicode` package:
`letter` stands for `unicode.IsLetter` and `digit` for `unicode.IsDigit`
there. -/
structure RuneTables where
  letter : Char → Bool
  digit : Char → Bool

/-- The test `unicode.IsLetter`: on ASCII the letters are `A` to `Z` and `a`
to `z`; any other rune is looked up in the tables. -/
def isLetter (t : RuneTables) (c : Char) : Bool :=
  if c.toNat < 128 then c.isAlpha else t.letter c

/-- The test `unicode.IsDigit`: on ASCII the digits are `0` to `9`; any other
rune is looked up in the tables. -/
def isDigit (t : RuneTables) (c : Char) : Bool :=
  if c.toNat < 128 then c.isDigit else t.digit c

/-- Two's-complement wrap-around of an `int64` result. -/
def wrapInt64 (x : Int) : Int :=
  (x + 2 ^ 63) % 2 ^ 64 - 2 ^ 63

/-- The backward scan of `Less` over the digits just before the first
difference (`before` lists them nearest first): whether one of them is not
`'0'`. -/
def digitRunHasNonZero (t : RuneTables) : List Char → Bool
  | [] => false
  | c :: rest =>
    if isDigit t c then (if c = '0' then digitRunHasNonZero t rest else true) else false

/-- The forward scan of `Less` over a run of digits: the `int64` they spell,
starting from `acc`, and how many digits were read on top of `n`. -/
def scanDigits (t : RuneTables) (acc : Int) (n : Nat) : List Char → Int × Nat
  | [] => (acc, n)
  | c :: rest =>
    if isDigit t c then
      scanDigits t (wrapInt64 (acc * 10 + ((c.toNat : Int) - ('0'.toNat : Int)))) (n + 1) rest
    else (acc, n)

/-- The loop of `keyList.Less` on the runes of two string keys, from the first
position not yet compared; `before` holds the common runes already passed,
nearest first. -/
def keyLessFrom (t : RuneTables) (before : List Char) : List Char → List Char → Bool
  | a :: ar, b :: br =>
    if a = b then keyLessFrom t (a :: before) ar br
    else if isLetter t a && isLetter t b then decide (a < b)
    else if isLetter t a || isLetter t b then isLetter t b
    else
      let start : Int :=
        if (a = '0' || b = '0') && digitRunHasNonZero t before then 1 else 0
      let an := scanDigits t start 0 (a :: ar)
      let bn := scanDigits t start 0 (b :: br)
      if an.1 ≠ bn.1 then decide (an.1 < bn.1)
      else if an.2 ≠ bn.2 then decide (an.2 < bn.2)
      else decide (a < b)
  | [], _ :: _ => true
  | _, [] => false

/-- The comparison `keyList.Less` of two string keys. -/
def keyLess (t : RuneTables) (a b : String) : Bool :=
  keyLessFrom t [] a.data b.data

/-- One round of the insertion sort of Go's `sort` package: the key `x` moves
left past every already placed key that it is `Less` than, and stops at the
first one that it is not.  `placed` lists the placed keys from right to left,
and so does the result. -/
def insertKey (t : RuneTables) (x : String) : List String → List String
  | [] => [x]
  | p :: rest => if keyLess t x p then p :: insertKey t x rest else x :: p :: rest

/-- The key order of `mappingv`: the enumeration `keys` of the map's keys
after `sort.Sort(keys)`.  For at most six keys `sort.Sort` is the insertion
sort, which places the keys one by one from left to right; no mapping with
fixed keys in the document of `Content` has more than five. -/
def mappingvKeys (t : RuneTables) (keys : List String) : List String :=
  (keys.foldl (fun placed x => insertKey t x placed) []).reverse

/-- Every order in which the encoder can write the keys of the map `m`: one
per order in which `MapKeys` can enumerate them. -/
def M.emittedKeys (t : RuneTables) (m : M) : List (List String) :=
  (M.keys m).permutations'.map (mappingvKeys t)

/-! ## Auxiliary functions of the proofs -/

/-- The rules of `r` that belong to the instance `id`, in input order. -/
def rulesOf (r : Rules) (id : Int) : Rules :=
  r.filter (fun x => decide (x.PromID = id))

/-- The sum of the lengths of the rule slices held in a map. -/
def RulesMap.total (tmp : RulesMap) : Nat :=
  (tmp.map (fun e => e.2.length)).sum

/-! ## Sample inputs -/

/-- A rule of instance 10. -/
def sampleRuleA : Rule :=
  { ID := 1, PromID := 10, Expr := "up", Op := "==", Value := "0", For := "5m",
    Labels := [("severity", "critical")], Summary := "down", Description := "instance down" }

/-- A rule of instance 20. -/
def sampleRuleB : Rule :=
  { ID := 2, PromID := 20, Expr := "load", Op := ">", Value := "4", For := "1m",
    Labels := [], Summary := "busy", Description := "load is high" }

/-- A second rule of instance 10. -/
def sampleRuleC : Rule :=
  { ID := 3, PromID := 10, Expr := "free", Op := "<", Value := "2", For := "2m",
    Labels := [], Summary := "full", Description := "disk is full" }

/-- A collection with two rules of instance 10 around one rule of instance 20. -/
def sampleRules : Rules :=
  [sampleRuleA, sampleRuleB, sampleRuleC]

/-- The result of `PromRules` on `sampleRules` when `range tmp` yields the
entry of instance 20 before the entry of instance 10. -/
def sampleData : List PromRules :=
  [ { Prom := { ID := 20, URL := "" }, Rules := [sampleRuleB] },
    { Prom := { ID := 10, URL := "" }, Rules := [sampleRuleA, sampleRuleC] } ]

/-- A classification with no letter and no digit beyond ASCII, to evaluate the
key order on. -/
def sampleTables : RuneTables :=
  { letter := fun _ => false, digit := fun _ => false }

/-- A rule whose owning-instance identifier is the zero value. -/
def sampleRuleZ : Rule :=
  { ID := 4, PromID := 0, Expr := "temp", Op := ">=", Value := "90", For := "10m",
    Labels := [], Summary := "hot", Description := "sensor is hot" }

/-- A collection with a rule of instance 0 before a rule of instance 10. -/
def sampleRulesZero : Rules :=
  [sampleRuleZ, sampleRuleA]

/-- The result of `PromRules` on `sampleRulesZero` when `range tmp` yields the
entry of instance 10 before the entry of instance 0. -/
def sampleDataZero : List PromRules :=
  [ { Prom := { ID := 10, URL := "" }, Rules := [sampleRuleA] },
    { Prom := { ID := 0, URL := "" }, Rules := [sampleRuleZ] } ]

/-! ## Reading a decimal string back

The module never parses an alert name; the reader below is the decimal parser
that a consumer of the document would apply to it. -/

/-- The number spelled by a run of decimal digits, continuing from `acc`;
`none` when a character is not a decimal digit. -/
def parseDigitsFrom (acc : Nat) : List Char → Option Nat
  | [] => some acc
  | c :: cs =>
    if c.isDigit then parseDigitsFrom (acc * 10 + (c.toNat - '0'.toNat)) cs else none

/-- The integer spelled by a decimal string: an optional leading minus sign
and then one or more decimal digits; `none` for any other string. -/
def parseDecimal (s : String) : Option Int :=
  match s.data with
  | [] => none
  | c :: cs =>
    if c = '-' then
      if cs = [] then none else (parseDigitsFrom 0 cs).map (fun (n : Nat) => -(n : Int))
    else (parseDigitsFrom 0 (c :: cs)).map (fun (n : Nat) => (n : Int))

/-! ## Lemmas on the Go map of `PromRules` -/

theorem RulesMap.lookup_store_self (tmp : RulesMap) (id : Int) (v : Rules) :
    RulesMap.lookup (RulesMap.store tmp id v) id = some v := by
  induction tmp with
  | nil => simp [RulesMap.store, RulesMap.lookup]
  | cons e rest ih =>
    obtain ⟨k, w⟩ := e
    by_cases h : k = id
    · simp [RulesMap.store, RulesMap.lookup, h]
    · simp [RulesMap.store, RulesMap.lookup, h, ih]

theorem RulesMap.lookup_store_ne (tmp : RulesMap) (id id' : Int) (v : Rules) (hne : id ≠ id') :
    RulesMap.lookup (RulesMap.store tmp id v) id' = RulesMap.lookup tmp id' := by
  induction tmp with
  | nil => simp [RulesMap.store, RulesMap.lookup, hne]
  | cons e rest ih =>
    obtain ⟨k, w⟩ := e
    by_cases h : k = id
    · subst h
      simp [RulesMap.store, RulesMap.lookup, hne]
    · by_cases h' : k = id'
      · subst h'
        simp [RulesMap.store, RulesMap.lookup, h]
      · simp [RulesMap.store, RulesMap.lookup, h, h', ih]

theorem RulesMap.lookup_eq_none_iff (tmp : RulesMap) (id : Int) :
    RulesMap.lookup tmp id = none ↔ id ∉ tmp.map Prod.fst := by
  induction tmp with
  | nil => simp [RulesMap.lookup]
  | cons e rest ih =>
    obtain ⟨k, w⟩ := e
    by_cases h : k = id
    · simp [RulesMap.lookup, h]
    · have h' : ¬ id = k := fun e => h e.symm
      simp [RulesMap.lookup, h, h', ih]

theorem RulesMap.keys_store_of_mem (tmp : RulesMap) (id : Int) (v : Rules)
    (hmem : id ∈ tmp.map Prod.fst) :
    (RulesMap.store tmp id v).map Prod.fst = tmp.map Prod.fst := by
  induction tmp with
  | nil => simp at hmem
  | cons e rest ih =>
    obtain ⟨k, w⟩ := e
    by_cases h : k = id
    · simp [RulesMap.store, h]
    · have h' : ¬ id = k := fun e => h e.symm
      have hrest : id ∈ rest.map Prod.fst := by
        simpa [h'] using hmem
      simp [RulesMap.store, h, ih hrest]

theorem RulesMap.keys_store_of_not_mem (tmp : RulesMap) (id : Int) (v : Rules)
    (hmem : id ∉ tmp.map Prod.fst) :
    (RulesMap.store tmp id v).map Prod.fst = tmp.map Prod.fst ++ [id] := by
  induction tmp with
  | nil => simp [RulesMap.store]
  | cons e rest ih =>
    obtain ⟨k, w⟩ := e
    have hk : ¬ k = id := by
      intro e; apply hmem; simp [e]
    have hrest : id ∉ rest.map Prod.fst := by
      intro hin; apply hmem; simp only [List.map_cons, List.mem_cons]; exact Or.inr hin
    simp [RulesMap.store, hk, ih hrest]

theorem RulesMap.nodup_keys_store (tmp : RulesMap) (id : Int) (v : Rules)
    (hnd : (tmp.map Prod.fst).Nodup) :
    ((RulesMap.store tmp id v).map Prod.fst).Nodup := by
  by_cases hmem : id ∈ tmp.map Prod.fst
  · rw [RulesMap.keys_store_of_mem tmp id v hmem]; exact hnd
  · rw [RulesMap.keys_store_of_not_mem tmp id v hmem]
    rw [List.nodup_append]
    refine ⟨hnd, List.nodup_singleton id, ?_⟩
    intro a ha hb
    simp only [List.mem_singleton] at hb
    subst hb
    exact hmem ha

theorem RulesMap.mem_iff_lookup (tmp : RulesMap) (hnd : (tmp.map Prod.fst).Nodup)
    (id : Int) (v : Rules) :
    (id, v) ∈ tmp ↔ RulesMap.lookup tmp id = some v := by
  induction tmp with
  | nil => simp [RulesMap.lookup]
  | cons e rest ih =>
    obtain ⟨k, w⟩ := e
    simp only [List.map_cons, List.nodup_cons] at hnd
    by_cases h : k = id
    · subst h
      have hnot : ∀ u, (k, u) ∉ rest := by
        intro u hu
        exact hnd.1 (List.mem_map_of_mem Prod.fst hu)
      simp only [RulesMap.lookup, if_true, List.mem_cons, Prod.mk.injEq, true_and,
        Option.some.injEq]
      constructor
      · rintro (h1 | h1)
        · exact h1.symm
        · exact absurd h1 (hnot v)
      · intro h1; exact Or.inl h1.symm
    · have h' : ¬ id = k := fun e => h e.symm
      simp [RulesMap.lookup, h, h', ih hnd.2]

theorem RulesMap.total_store_of_none (tmp : RulesMap) (id : Int) (v : Rules)
    (hl : RulesMap.lookup tmp id = none) :
    RulesMap.total (RulesMap.store tmp id v) = RulesMap.total tmp + v.length := by
  induction tmp with
  | nil => simp [RulesMap.store, RulesMap.total]
  | cons e rest ih =>
    obtain ⟨k, w⟩ := e
    by_cases h : k = id
    · simp [RulesMap.lookup, h] at hl
    · simp only [RulesMap.lookup, h, if_false] at hl
      have := ih hl
      simp only [RulesMap.total] at this ⊢
      simp only [RulesMap.store, h, if_false, List.map_cons, List.sum_cons, this]
      omega

theorem RulesMap.total_store_of_some (tmp : RulesMap) (id : Int) (v w : Rules)
    (hl : RulesMap.lookup tmp id = some w) :
    RulesMap.total (RulesMap.store tmp id v) + w.length = RulesMap.total tmp + v.length := by
  induction tmp with
  | nil => simp [RulesMap.lookup] at hl
  | cons e rest ih =>
    obtain ⟨k, u⟩ := e
    by_cases h : k = id
    · simp only [RulesMap.lookup, h, if_true, Option.some.injEq] at hl
      subst hl
      simp only [RulesMap.total, RulesMap.store, h, if_true, List.map_cons, List.sum_cons]
      omega
    · simp only [RulesMap.lookup, h, if_false] at hl
      have := ih hl
      simp only [RulesMap.total] at this ⊢
      simp only [RulesMap.store, h, if_false, List.map_cons, List.sum_cons]
      omega

/-! ## The two loops of `PromRules` -/

theorem promRulesTmp_append (r : Rules) (x : Rule) :
    promRulesTmp (r ++ [x]) = promRulesStep (promRulesTmp r) x := by
  simp [promRulesTmp, List.foldl_append]

theorem rulesOf_append_self (r : Rules) (x : Rule) :
    rulesOf (r ++ [x]) x.PromID = rulesOf r x.PromID ++ [x] := by
  simp [rulesOf, List.filter_append]

theorem rulesOf_append_ne (r : Rules) (x : Rule) (id : Int) (hne : x.PromID ≠ id) :
    rulesOf (r ++ [x]) id = rulesOf r id := by
  simp [rulesOf, List.filter_append, hne]

/-- What the first loop has built once it has consumed `r`: the keys of `tmp`
are distinct, `tmp[id]` is absent when no rule of `r` has `PromID = id` and
otherwise is the sub-sequence of those rules, and the slices held in `tmp`
have `len(r)` rules in total. -/
theorem promRulesTmp_inv (r : Rules) :
    ((promRulesTmp r).map Prod.fst).Nodup ∧
    (∀ id, RulesMap.lookup (promRulesTmp r) id =
      if rulesOf r id = [] then none else some (rulesOf r id)) ∧
    RulesMap.total (promRulesTmp r) = r.length := by
  induction r using List.reverseRecOn with
  | nil => simp [promRulesTmp, RulesMap.lookup, RulesMap.total, rulesOf]
  | append_singleton r x ih =>
    obtain ⟨hnd, hlook, htot⟩ := ih
    have hstep : promRulesTmp (r ++ [x]) =
        RulesMap.store (promRulesTmp r) x.PromID (rulesOf r x.PromID ++ [x]) := by
      rw [promRulesTmp_append, promRulesStep]
      have h0 := hlook x.PromID
      by_cases he : rulesOf r x.PromID = []
      · rw [if_pos he] at h0
        rw [h0, he]; rfl
      · rw [if_neg he] at h0
        rw [h0]
    refine ⟨?_, ?_, ?_⟩
    · rw [hstep]; exact RulesMap.nodup_keys_store _ _ _ hnd
    · intro id
      rw [hstep]
      by_cases hid : x.PromID = id
      · subst hid
        rw [RulesMap.lookup_store_self, rulesOf_append_self]
        simp
      · rw [RulesMap.lookup_store_ne _ _ _ _ hid, rulesOf_append_ne r x id hid]
        exact hlook id
    · rw [hstep]
      have h0 := hlook x.PromID
      by_cases he : rulesOf r x.PromID = []
      · rw [if_pos he] at h0
        rw [RulesMap.total_store_of_none _ _ _ h0, htot]
        simp [he]
      · rw [if_neg he] at h0
        have := RulesMap.total_store_of_some _ _ (rulesOf r x.PromID ++ [x]) _ h0
        simp only [List.length_append, List.length_singleton] at this ⊢
        omega

/-- The entries of `tmp` after the first loop. -/
theorem mem_promRulesTmp_iff (r : Rules) (id : Int) (v : Rules) :
    (id, v) ∈ promRulesTmp r ↔ v = rulesOf r id ∧ v ≠ [] := by
  obtain ⟨hnd, hlook, _⟩ := promRulesTmp_inv r
  rw [RulesMap.mem_iff_lookup _ hnd, hlook]
  by_cases he : rulesOf r id = []
  · rw [if_pos he]
    constructor
    · intro h; cases h
    · rintro ⟨h1, h2⟩; exact absurd (h1.trans he) h2
  · rw [if_neg he]
    constructor
    · intro h
      have h' : rulesOf r id = v := Option.some.inj h
      exact ⟨h'.symm, h' ▸ he⟩
    · rintro ⟨h1, _⟩; rw [h1]

/-- The keys of `tmp` after the first loop are the identifiers that own a rule. -/
theorem mem_keys_promRulesTmp_iff (r : Rules) (id : Int) :
    id ∈ (promRulesTmp r).map Prod.fst ↔ id ∈ r.map (fun x => x.PromID) := by
  obtain ⟨_, hlook, _⟩ := promRulesTmp_inv r
  have h1 := RulesMap.lookup_eq_none_iff (promRulesTmp r) id
  rw [hlook] at h1
  have h2 : rulesOf r id = [] ↔ id ∉ r.map (fun x => x.PromID) := by
    simp only [rulesOf, List.filter_eq_nil_iff, decide_eq_true_eq, List.mem_map, not_exists,
      not_and]
  by_cases he : rulesOf r id = []
  · rw [if_pos he] at h1
    have h3 := h1.mp rfl
    have h4 := h2.mp he
    exact ⟨fun h => absurd h h3, fun h => absurd h h4⟩
  · rw [if_neg he] at h1
    have h3 : id ∈ (promRulesTmp r).map Prod.fst := by
      by_contra hc; exact absurd (h1.mpr hc) (by simp)
    have h4 : id ∈ r.map (fun x => x.PromID) := by
      by_contra hc; exact he (h2.mpr hc)
    exact ⟨fun _ => h4, fun _ => h3⟩

/-- The second loop appends one partition per visited entry, in visiting order. -/
theorem promRulesData_eq_map (visit : RulesMap) :
    promRulesData visit =
      visit.map (fun e => ({ Prom := { ID := e.1, URL := "" }, Rules := e.2 } : PromRules)) := by
  have key : ∀ (visit : RulesMap) (acc : List PromRules),
      visit.foldl
        (fun data e => data ++ [({ Prom := { ID := e.1, URL := "" }, Rules := e.2 } : PromRules)])
        acc =
      acc ++ visit.map
        (fun e => ({ Prom := { ID := e.1, URL := "" }, Rules := e.2 } : PromRules)) := by
    intro visit
    induction visit with
    | nil => intro acc; simp
    | cons e rest ih => intro acc; simp [ih]
  simpa [promRulesData] using key visit []

/-- A value is a possible result of `PromRules` exactly when it is what the
second loop builds for some visiting order of the entries of `tmp`. -/
theorem promRules_iff (r : Rules) (data : List PromRules) :
    Rules.PromRules r data ↔
      ∃ visit : RulesMap, visit.Perm (promRulesTmp r) ∧ data = promRulesData visit := by
  simp only [Rules.PromRules, Rules.PromRulesResults, List.mem_map, List.mem_permutations']
  constructor
  · rintro ⟨visit, hp, rfl⟩; exact ⟨visit, hp, rfl⟩
  · rintro ⟨visit, hp, rfl⟩; exact ⟨visit, hp, rfl⟩

/-- The method `PromRules` returns on every input: visiting `tmp` in the order
of the embedding is one possible run. -/
theorem promRules_returns (r : Rules) :
    Rules.PromRules r (promRulesData (promRulesTmp r)) :=
  (promRules_iff r _).mpr ⟨promRulesTmp r, List.Perm.refl _, rfl⟩

/-- The partitions of a result are the entries of `tmp`. -/
theorem mem_promRules_iff (r : Rules) (data : List PromRules) (h : Rules.PromRules r data)
    (p : PromRules) :
    p ∈ data ↔ p.Prom.URL = "" ∧ p.Rules = rulesOf r p.Prom.ID ∧ p.Rules ≠ [] := by
  obtain ⟨visit, hperm, rfl⟩ := (promRules_iff r data).mp h
  rw [promRulesData_eq_map, List.mem_map]
  constructor
  · rintro ⟨e, he, rfl⟩
    have := (mem_promRulesTmp_iff r e.1 e.2).mp (hperm.mem_iff.mp he)
    exact ⟨rfl, this.1, this.2⟩
  · rintro ⟨hu, hr, hne⟩
    refine ⟨(p.Prom.ID, p.Rules), ?_, ?_⟩
    · exact hperm.mem_iff.mpr ((mem_promRulesTmp_iff r _ _).mpr ⟨hr, hne⟩)
    · obtain ⟨⟨pid, purl⟩, prules⟩ := p
      simp only at hu
      simp [hu]

/-- The identifiers of a result are the keys of `tmp` in visiting order. -/
theorem promRules_ids_perm (r : Rules) (data : List PromRules) (h : Rules.PromRules r data) :
    (data.map (fun p => p.Prom.ID)).Perm ((promRulesTmp r).map Prod.fst) := by
  obtain ⟨visit, hperm, rfl⟩ := (promRules_iff r data).mp h
  rw [promRulesData_eq_map, List.map_map]
  exact hperm.map _

/-! ## Claims on `PromRules` -/

/-- C1: every partition `p` of every result of `r.PromRules()` holds exactly
the sub-sequence of `r` made of the rules whose `PromID` equals `p.Prom.ID`
(same elements, same relative order, same multiplicity). -/
theorem promRules_rules_eq_filter (r : Rules) (data : List PromRules) (p : PromRules)
    (h : Rules.PromRules r data) (hp : p ∈ data) :
    p.Rules = r.filter (fun x => decide (x.PromID = p.Prom.ID)) :=
  ((mem_promRules_iff r data h p).mp hp).2.1

theorem promRules_rules_eq_filter_witness :
    Rules.PromRules sampleRules sampleData ∧
    ({ Prom := { ID := 10, URL := "" }, Rules := [sampleRuleA, sampleRuleC] } : PromRules) ∈
      sampleData ∧
    [sampleRuleA, sampleRuleC] = sampleRules.filter (fun x => decide (x.PromID = 10)) :=
  ⟨by decide, by decide,
    promRules_rules_eq_filter sampleRules sampleData
      { Prom := { ID := 10, URL := "" }, Rules := [sampleRuleA, sampleRuleC] }
      (by decide) (by decide)⟩

/-- C2: in every result of `r.PromRules()` the rule counts of the partitions
add up to `len(r)`. -/
theorem promRules_sum_lengths (r : Rules) (data : List PromRules)
    (h : Rules.PromRules r data) :
    (data.map (fun p => p.Rules.length)).sum = r.length := by
  obtain ⟨visit, hperm, rfl⟩ := (promRules_iff r data).mp h
  rw [promRulesData_eq_map, List.map_map]
  have h1 : (visit.map ((fun p : PromRules => p.Rules.length) ∘
      (fun e => ({ Prom := { ID := e.1, URL := "" }, Rules := e.2 } : PromRules)))).sum =
      RulesMap.total visit := rfl
  rw [h1]
  have h2 : RulesMap.total visit = RulesMap.total (promRulesTmp r) :=
    (hperm.map _).sum_eq
  rw [h2]
  exact (promRulesTmp_inv r).2.2

theorem promRules_sum_lengths_witness :
    Rules.PromRules sampleRules sampleData ∧
    (sampleData.map (fun p => p.Rules.length)).sum = 3 :=
  ⟨by decide, promRules_sum_lengths sampleRules sampleData (by decide)⟩

/-- C3: for every position `i` of `r`, every result of `r.PromRules()` has
exactly one partition that contains the rule `r[i]`, namely the one whose
identifier is `r[i].PromID`; and no partition contains a rule whose `PromID`
differs from the identifier of the partition. -/
theorem promRules_unique_partition (r : Rules) (data : List PromRules)
    (h : Rules.PromRules r data) (i : Fin r.length) :
    (∃ p, p ∈ data ∧ r.get i ∈ p.Rules ∧ p.Prom.ID = (r.get i).PromID ∧
        ∀ q, q ∈ data → r.get i ∈ q.Rules → q = p) ∧
    data.countP (fun q => decide (r.get i ∈ q.Rules)) = 1 ∧
    ∀ p, p ∈ data → ∀ x, x ∈ p.Rules → x.PromID = p.Prom.ID := by
  have hmem := mem_promRules_iff r data h
  have hown : ∀ q, q ∈ data → ∀ x, x ∈ q.Rules → x.PromID = q.Prom.ID := by
    intro q hq x hx
    rw [((hmem q).mp hq).2.1] at hx
    simpa [rulesOf] using (List.mem_filter.mp hx).2
  have hin : r.get i ∈ rulesOf r (r.get i).PromID := by
    simp [rulesOf, List.mem_filter, List.get_mem]
  let p : PromRules :=
    { Prom := { ID := (r.get i).PromID, URL := "" }, Rules := rulesOf r (r.get i).PromID }
  have hp : p ∈ data := (hmem p).mpr ⟨rfl, rfl, List.ne_nil_of_mem hin⟩
  have huniq : ∀ q, q ∈ data → r.get i ∈ q.Rules → q = p := by
    intro q hq hx
    have hid : (r.get i).PromID = q.Prom.ID := hown q hq _ hx
    obtain ⟨hu, hr, _⟩ := (hmem q).mp hq
    obtain ⟨⟨qid, qurl⟩, qrules⟩ := q
    simp only at hu hr hid
    subst hu hid
    simp [p, hr]
  refine ⟨⟨p, hp, hin, rfl, huniq⟩, ?_, hown⟩
  have hnd : data.Nodup := by
    have hids : (data.map (fun p => p.Prom.ID)).Nodup :=
      (promRules_ids_perm r data h).nodup_iff.mpr (promRulesTmp_inv r).1
    exact List.Nodup.of_map _ hids
  have hcongr : data.countP (fun q => decide (r.get i ∈ q.Rules)) = data.count p := by
    rw [List.count]
    apply List.countP_congr
    intro q hq
    simp only [decide_eq_true_eq, beq_iff_eq]
    constructor
    · intro hx; exact huniq q hq hx
    · intro he; rw [he]; exact hin
  rw [hcongr]
  exact List.count_eq_one_of_mem hnd hp

theorem promRules_unique_partition_witness :
    Rules.PromRules sampleRules sampleData ∧
    sampleData.countP (fun q => decide (sampleRules.get ⟨2, by decide⟩ ∈ q.Rules)) = 1 :=
  ⟨by decide, (promRules_unique_partition sampleRules sampleData (by decide) ⟨2, by decide⟩).2.1⟩

/-- C4: every result of `r.PromRules()` has one partition per distinct
`PromID` of `r`: the identifiers of its partitions are pairwise distinct, they
are exactly the `PromID` values occurring in `r`, and the number of partitions
is the number of distinct `PromID` values of `r`. -/
theorem promRules_one_partition_per_id (r : Rules) (data : List PromRules)
    (h : Rules.PromRules r data) :
    (data.map (fun p => p.Prom.ID)).Nodup ∧
    (∀ id, id ∈ data.map (fun p => p.Prom.ID) ↔ id ∈ r.map (fun x => x.PromID)) ∧
    data.length = (r.map (fun x => x.PromID)).dedup.length := by
  have hperm := promRules_ids_perm r data h
  have hnd : (data.map (fun p => p.Prom.ID)).Nodup :=
    hperm.nodup_iff.mpr (promRulesTmp_inv r).1
  have hset : ∀ id, id ∈ data.map (fun p => p.Prom.ID) ↔ id ∈ r.map (fun x => x.PromID) := by
    intro id
    rw [hperm.mem_iff]
    exact mem_keys_promRulesTmp_iff r id
  refine ⟨hnd, hset, ?_⟩
  have hp2 : (data.map (fun p => p.Prom.ID)).Perm (r.map (fun x => x.PromID)).dedup := by
    rw [List.perm_ext_iff_of_nodup hnd (List.nodup_dedup _)]
    intro id
    rw [hset, List.mem_dedup]
  have := hp2.length_eq
  simpa using this

theorem promRules_one_partition_per_id_witness :
    Rules.PromRules sampleRules sampleData ∧
    sampleData.map (fun p => p.Prom.ID) = [20, 10] ∧
    sampleData.length = (sampleRules.map (fun x => x.PromID)).dedup.length :=
  ⟨by decide, by decide,
    (promRules_one_partition_per_id sampleRules sampleData (by decide)).2.2⟩

/-- C10: on the empty rule collection (an empty or a nil `Rules`) the only
result of `PromRules` is the empty sequence of partitions. -/
theorem promRules_nil (data : List PromRules) :
    Rules.PromRules [] data ↔ data = [] := by
  simp [Rules.PromRules, Rules.PromRulesResults, promRulesTmp, promRulesData, eq_comm]

/-! ## Claims on `Content` -/

/-- The loop of `Content` appends one record per rule, in input order. -/
theorem contentRules_eq_map (r : Rules) :
    contentRules r = r.map (fun i => Value.map (contentRecord i)) := by
  have key : ∀ (r : Rules) (acc : S),
      r.foldl (fun rules i => rules ++ [Value.map (contentRecord i)]) acc =
        acc ++ r.map (fun i => Value.map (contentRecord i)) := by
    intro r
    induction r with
    | nil => intro acc; simp
    | cons x rest ih => intro acc; simp [ih]
  simpa [contentRules] using key r []

/-- The model of `strconv.FormatInt(i, 10)` is the usual decimal rendering of
an integer. -/
theorem FormatInt_eq_toString (i : Int) : FormatInt i = toString i := by
  cases i with
  | ofNat n =>
    simp [FormatInt]
    rfl
  | negSucc n =>
    simp [FormatInt, Int.negSucc_lt_zero]
    rfl

/-- C5: the document that `r.Content()` hands to the encoder has, in its one
group, a `rules` sequence of exactly `len(r)` records, and the `i`-th record
is the one built from `r[i]`: `alert` is the decimal string of the `ID`,
`expr` is `Expr`, `Op` and `Value` joined by single spaces, `for` and
`labels` are the fields `For` and `Labels` as they are. -/
theorem content_records (r : Rules) :
    ∃ (doc group : M) (recs : S),
      (Rules.Content Except.ok r : Except Unit Value) = Except.ok (Value.map doc) ∧
      M.get doc "groups" = some (Value.seq [Value.map group]) ∧
      M.get group "rules" = some (Value.seq recs) ∧
      recs.length = r.length ∧
      ∀ i : Fin r.length, ∃ record : M,
        recs[i.val]? = some (Value.map record) ∧
        M.get record "alert" = some (Value.str (FormatInt (r.get i).ID)) ∧
        M.get record "expr" =
          some (Value.str ((r.get i).Expr ++ " " ++ (r.get i).Op ++ " " ++ (r.get i).Value)) ∧
        M.get record "for" = some (Value.str (r.get i).For) ∧
        M.get record "labels" = some (Value.strMap (r.get i).Labels) := by
  refine ⟨contentResult r, contentGroup r, contentRules r, rfl, rfl, rfl, ?_, ?_⟩
  · rw [contentRules_eq_map, List.length_map]
  · intro i
    refine ⟨contentRecord (r.get i), ?_, rfl, rfl, rfl, rfl⟩
    rw [contentRules_eq_map, List.getElem?_map, List.getElem?_eq_getElem i.isLt]
    rfl

/-- C6: for every rule `r[i]` of the input of `Content`, the `annotations`
mapping of its record has exactly the four keys `rule_id`, `prom_id`,
`summary` and `description`, bound to the decimal string of the `ID`, the
decimal string of the `PromID`, the `Summary` and the `Description`. -/
theorem content_annotations (r : Rules) (i : Fin r.length) :
    ∃ (doc group : M) (recs : S) (record ann : M),
      (Rules.Content Except.ok r : Except Unit Value) = Except.ok (Value.map doc) ∧
      M.get doc "groups" = some (Value.seq [Value.map group]) ∧
      M.get group "rules" = some (Value.seq recs) ∧
      recs[i.val]? = some (Value.map record) ∧
      M.get record "annotations" = some (Value.map ann) ∧
      (M.keys ann).Perm ["rule_id", "prom_id", "summary", "description"] ∧
      M.get ann "rule_id" = some (Value.str (FormatInt (r.get i).ID)) ∧
      M.get ann "prom_id" = some (Value.str (FormatInt (r.get i).PromID)) ∧
      M.get ann "summary" = some (Value.str (r.get i).Summary) ∧
      M.get ann "description" = some (Value.str (r.get i).Description) := by
  refine ⟨contentResult r, contentGroup r, contentRules r, contentRecord (r.get i),
    contentAnnotations (r.get i), rfl, rfl, rfl, ?_, rfl, List.Perm.refl _, rfl, rfl, rfl, rfl⟩
  rw [contentRules_eq_map, List.getElem?_map, List.getElem?_eq_getElem i.isLt]
  rfl

/-- C7: for every `r`, of any length, the document that `r.Content()` hands to
the encoder has the single top-level key `groups`, bound to a sequence of
exactly one group; the group has exactly the keys `name` and `rules`, its
`name` is the constant `"ruleengine"` and its `rules` holds all the records
built from `r`. -/
theorem content_single_group (r : Rules) :
    ∃ doc group : M,
      (Rules.Content Except.ok r : Except Unit Value) = Except.ok (Value.map doc) ∧
      M.keys doc = ["groups"] ∧
      M.get doc "groups" = some (Value.seq [Value.map group]) ∧
      (M.keys group).Perm ["name", "rules"] ∧
      M.get group "name" = some (Value.str "ruleengine") ∧
      M.get group "rules" = some (Value.seq (r.map (fun i => Value.map (contentRecord i)))) := by
  refine ⟨contentResult r, contentGroup r, rfl, rfl, rfl, List.Perm.refl _, rfl, ?_⟩
  rw [← contentRules_eq_map]
  rfl

/-- C8: `Content` returns what the encoder returns for the document it has
built: there is one document, the same for every encoder, such that
`r.Content()` fails exactly when encoding it fails, with the encoder's error,
and otherwise returns exactly the encoder's bytes. -/
theorem content_propagates_encoder (r : Rules) :
    ∃ doc : Value,
      (Rules.Content Except.ok r : Except Unit Value) = Except.ok doc ∧
      ∀ (ε β : Type) (Marshal : Value → Except ε β),
        Rules.Content Marshal r = Marshal doc ∧
        (∀ e, Rules.Content Marshal r = Except.error e ↔ Marshal doc = Except.error e) ∧
        (∀ b, Rules.Content Marshal r = Except.ok b ↔ Marshal doc = Except.ok b) :=
  ⟨Value.map (contentResult r), rfl, fun _ _ _ => ⟨rfl, fun _ => Iff.rfl, fun _ => Iff.rfl⟩⟩

/-- The keys of a rule record are written in one order only, whatever the
enumeration order of the map and the tables of the `unicode` package. -/
theorem emittedKeys_contentRecord (t : RuneTables) (i : Rule) :
    M.emittedKeys t (contentRecord i) =
      List.replicate 120 ["alert", "annotations", "expr", "for", "labels"] := by
  set_option maxRecDepth 100000 in rfl

/-- The keys of an annotations mapping are written in one order only. -/
theorem emittedKeys_contentAnnotations (t : RuneTables) (i : Rule) :
    M.emittedKeys t (contentAnnotations i) =
      List.replicate 24 ["description", "prom_id", "rule_id", "summary"] := by
  set_option maxRecDepth 100000 in rfl

/-- The keys of the group are written in one order only. -/
theorem emittedKeys_contentGroup (t : RuneTables) (r : Rules) :
    M.emittedKeys t (contentGroup r) = List.replicate 2 ["name", "rules"] := by
  rfl

/-- C9, as stated, fails: for the record and the annotations of `sampleRuleA`
the encoder never writes the keys in the order of the composite literals,
whatever the enumeration order of the map and the tables of the `unicode`
package. -/
theorem content_keys_insertion_order_fails :
    (¬ ∃ t : RuneTables, ["alert", "expr", "for", "labels", "annotations"] ∈
        M.emittedKeys t (contentRecord sampleRuleA)) ∧
    (¬ ∃ t : RuneTables, ["rule_id", "prom_id", "summary", "description"] ∈
        M.emittedKeys t (contentAnnotations sampleRuleA)) := by
  constructor
  · rintro ⟨t, h⟩
    rw [emittedKeys_contentRecord] at h
    exact absurd (List.eq_of_mem_replicate h) (by decide)
  · rintro ⟨t, h⟩
    rw [emittedKeys_contentAnnotations] at h
    exact absurd (List.eq_of_mem_replicate h) (by decide)

/-- C9, amended: in the document emitted by `Content` the keys of a rule
record are written in the order `alert`, `annotations`, `expr`, `for`,
`labels` and the keys of an annotations mapping in the order `description`,
`prom_id`, `rule_id`, `summary`, which is the sorted key order of the encoder
and not the order of insertion; the keys of the group are written in the
order `name`, `rules`.  This holds for every order in which the Go map
enumerates its keys. -/
theorem content_keys_sorted (t : RuneTables) (r : Rules) (i : Rule) (ks : List String) :
    (ks ∈ M.emittedKeys t (contentRecord i) →
      ks = ["alert", "annotations", "expr", "for", "labels"]) ∧
    (ks ∈ M.emittedKeys t (contentAnnotations i) →
      ks = ["description", "prom_id", "rule_id", "summary"]) ∧
    (ks ∈ M.emittedKeys t (contentGroup r) → ks = ["name", "rules"]) := by
  rw [emittedKeys_contentRecord, emittedKeys_contentAnnotations, emittedKeys_contentGroup]
  exact ⟨List.eq_of_mem_replicate, List.eq_of_mem_replicate, List.eq_of_mem_replicate⟩

theorem content_keys_sorted_witness :
    mappingvKeys sampleTables ["annotations", "labels", "for", "expr", "alert"] ∈
      M.emittedKeys sampleTables (contentRecord sampleRuleA) ∧
    mappingvKeys sampleTables ["annotations", "labels", "for", "expr", "alert"] =
      ["alert", "annotations", "expr", "for", "labels"] :=
  ⟨by set_option maxRecDepth 100000 in decide,
    (content_keys_sorted sampleTables sampleRules sampleRuleA _).1
      (by set_option maxRecDepth 100000 in decide)⟩

/-! ## Further claims on `Content` and `PromRules` -/

/-- C11: on the empty rule collection the document that `Content` hands to
the encoder has exactly one group, named `"ruleengine"`, whose `rules` key is
present and bound to the empty sequence `S{}`. -/
theorem content_empty :
    ∃ doc group : M,
      (Rules.Content Except.ok ([] : Rules) : Except Unit Value) = Except.ok (Value.map doc) ∧
      M.get doc "groups" = some (Value.seq [Value.map group]) ∧
      M.get group "name" = some (Value.str "ruleengine") ∧
      M.get group "rules" = some (Value.seq []) :=
  ⟨contentResult [], contentGroup [], rfl, rfl, rfl, rfl⟩

/-- C12: every partition of every result of `r.PromRules()` carries a
descriptor whose `URL` is the empty string: the descriptor is
`Prom{ID: id}`, with nothing but the identifier set. -/
theorem promRules_url_empty (r : Rules) (data : List PromRules) (p : PromRules)
    (h : Rules.PromRules r data) (hp : p ∈ data) :
    p.Prom.URL = "" ∧ p.Prom = { ID := p.Prom.ID, URL := "" } := by
  have hu := ((mem_promRules_iff r data h p).mp hp).1
  obtain ⟨⟨pid, purl⟩, prules⟩ := p
  simp only at hu
  subst hu
  exact ⟨rfl, rfl⟩

theorem promRules_url_empty_witness :
    Rules.PromRules sampleRules sampleData ∧
    ({ Prom := { ID := 20, URL := "" }, Rules := [sampleRuleB] } : PromRules) ∈ sampleData ∧
    ({ ID := 20, URL := "" } : Prom).URL = "" :=
  ⟨by decide, by decide,
    (promRules_url_empty sampleRules sampleData
      { Prom := { ID := 20, URL := "" }, Rules := [sampleRuleB] } (by decide) (by decide)).1⟩

/-- C13: for the one-rule collection of the example (`sampleRuleA`) the
document that `Content` hands to the encoder has a single rule entry, with
`alert` `"1"`, `expr` `"up == 0"`, `for` `"5m"`, `labels`
`{severity: "critical"}` and `annotations` binding `rule_id` to `"1"`,
`prom_id` to `"10"`, `summary` to `"down"` and `description` to
`"instance down"`. -/
theorem content_example :
    ∃ doc group record ann : M,
      (Rules.Content Except.ok [sampleRuleA] : Except Unit Value) = Except.ok (Value.map doc) ∧
      M.get doc "groups" = some (Value.seq [Value.map group]) ∧
      M.get group "rules" = some (Value.seq [Value.map record]) ∧
      M.get record "alert" = some (Value.str "1") ∧
      M.get record "expr" = some (Value.str "up == 0") ∧
      M.get record "for" = some (Value.str "5m") ∧
      M.get record "labels" = some (Value.strMap [("severity", "critical")]) ∧
      M.get record "annotations" = some (Value.map ann) ∧
      (M.keys ann).Perm ["rule_id", "prom_id", "summary", "description"] ∧
      M.get ann "rule_id" = some (Value.str "1") ∧
      M.get ann "prom_id" = some (Value.str "10") ∧
      M.get ann "summary" = some (Value.str "down") ∧
      M.get ann "description" = some (Value.str "instance down") :=
  ⟨contentResult [sampleRuleA], contentGroup [sampleRuleA], contentRecord sampleRuleA,
    contentAnnotations sampleRuleA, rfl, rfl, rfl,
    congrArg (fun s => some (Value.str s)) (by decide : FormatInt 1 = "1"),
    congrArg (fun s => some (Value.str s)) (by decide : Join ["up", "==", "0"] " " = "up == 0"),
    rfl, rfl, rfl, List.Perm.refl _,
    congrArg (fun s => some (Value.str s)) (by decide : FormatInt 1 = "1"),
    congrArg (fun s => some (Value.str s)) (by decide : FormatInt 10 = "10"),
    rfl, rfl⟩

/-! ## Further lemmas on the results of `PromRules` -/

/-- The partitions of a result are pairwise distinct. -/
theorem promRules_nodup (r : Rules) (data : List PromRules) (h : Rules.PromRules r data) :
    data.Nodup := by
  have hids : (data.map (fun p => p.Prom.ID)).Nodup :=
    (promRules_ids_perm r data h).nodup_iff.mpr (promRulesTmp_inv r).1
  exact List.Nodup.of_map _ hids

/-- An identifier that owns a rule of `r` has its partition in every result,
and no other partition of the result carries that identifier. -/
theorem promRules_partition_of_id (r : Rules) (data : List PromRules)
    (h : Rules.PromRules r data) (id : Int) (hex : ∃ x, x ∈ r ∧ x.PromID = id) :
    ({ Prom := { ID := id, URL := "" }, Rules := rulesOf r id } : PromRules) ∈ data ∧
    data.countP (fun p => decide (p.Prom.ID = id)) = 1 := by
  obtain ⟨x, hx, hxid⟩ := hex
  have hin : x ∈ rulesOf r id := by
    simp [rulesOf, List.mem_filter, hx, hxid]
  have hp : ({ Prom := { ID := id, URL := "" }, Rules := rulesOf r id } : PromRules) ∈ data :=
    (mem_promRules_iff r data h _).mpr ⟨rfl, rfl, List.ne_nil_of_mem hin⟩
  refine ⟨hp, ?_⟩
  have hcongr : data.countP (fun p => decide (p.Prom.ID = id)) =
      data.count ({ Prom := { ID := id, URL := "" }, Rules := rulesOf r id } : PromRules) := by
    rw [List.count]
    apply List.countP_congr
    intro q hq
    simp only [decide_eq_true_eq, beq_iff_eq]
    obtain ⟨hu, hr, _⟩ := (mem_promRules_iff r data h q).mp hq
    constructor
    · intro hid
      obtain ⟨⟨qid, qurl⟩, qrules⟩ := q
      simp only at hu hr hid
      subst hu hid
      simp [hr]
    · intro he; rw [he]
  rw [hcongr]
  exact List.count_eq_one_of_mem (promRules_nodup r data h) hp

/-- A collection splits into the rules of instance `a`, the rules of
instance `b` and the rules of neither. -/
theorem rulesOf_length_split (r : Rules) (a b : Int) (hab : a ≠ b) :
    (rulesOf r a).length + (rulesOf r b).length +
      (r.filter (fun x => decide (x.PromID ≠ a ∧ x.PromID ≠ b))).length = r.length := by
  induction r with
  | nil => simp [rulesOf]
  | cons x rest ih =>
    simp only [rulesOf] at ih ⊢
    by_cases hxa : x.PromID = a
    · have hxb : ¬ x.PromID = b := fun e => hab (hxa.symm.trans e)
      simp only [List.filter_cons, hxa, hxb, decide_True, decide_False, if_true,
        List.length_cons, ne_eq, not_true_eq_false, false_and, not_false_eq_true]
      simp only [hxa] at hxb
      simp only [hxb, decide_False, ne_eq] at ih ⊢
      simp only [Bool.false_eq_true, if_false]
      omega
    · by_cases hxb : x.PromID = b
      · simp only [List.filter_cons, hxa, hxb, decide_True, decide_False, if_true,
          List.length_cons, ne_eq, not_true_eq_false, and_false, not_false_eq_true,
          Bool.false_eq_true, if_false] at ih ⊢
        have hba : ¬ b = a := fun e => hab e.symm
        simp only [hba, decide_False, Bool.false_eq_true, if_false]
        omega
      · simp only [List.filter_cons, hxa, hxb, decide_True, decide_False, if_true,
          List.length_cons, ne_eq, not_false_eq_true, and_self,
          Bool.false_eq_true, if_false] at ih ⊢
        omega

/-- A non-empty collection whose rules all belong to one instance fills the
map of the first loop with a single entry. -/
theorem promRulesTmp_of_same_id (v : Rules) (k : Int) (hne : v ≠ [])
    (hall : ∀ x, x ∈ v → x.PromID = k) :
    promRulesTmp v = [(k, v)] := by
  have hnd : (promRulesTmp v).Nodup := List.Nodup.of_map _ (promRulesTmp_inv v).1
  have hself : rulesOf v k = v := by
    simp only [rulesOf, List.filter_eq_self, decide_eq_true_eq]
    exact hall
  have hperm : (promRulesTmp v).Perm [(k, v)] := by
    rw [List.perm_ext_iff_of_nodup hnd (List.nodup_singleton _)]
    rintro ⟨id, w⟩
    rw [mem_promRulesTmp_iff, List.mem_singleton]
    constructor
    · rintro ⟨hw, hwne⟩
      by_cases hid : id = k
      · subst hid; rw [hw, hself]
      · exfalso
        apply hwne
        rw [hw]
        simp only [rulesOf, List.filter_eq_nil_iff, decide_eq_true_eq]
        intro x hx hxid
        exact hid (hxid.symm.trans (hall x hx))
    · intro he
      cases he
      exact ⟨hself.symm, hne⟩
  exact List.perm_singleton.mp hperm

/-- C14: for every collection of three rules of which two have `PromID` 10
and one has `PromID` 20, in any input order, every result of `PromRules` has
exactly two partitions: the one of identifier 10 with the two rules of
`PromID` 10 and the one of identifier 20 with the rule of `PromID` 20. -/
theorem promRules_two_and_one (r : Rules) (data : List PromRules)
    (h3 : r.length = 3)
    (h10 : (r.filter (fun x => decide (x.PromID = 10))).length = 2)
    (h20 : (r.filter (fun x => decide (x.PromID = 20))).length = 1)
    (h : Rules.PromRules r data) :
    data.length = 2 ∧
    data.Perm
      [ { Prom := { ID := 10, URL := "" }, Rules := r.filter (fun x => decide (x.PromID = 10)) },
        { Prom := { ID := 20, URL := "" }, Rules := r.filter (fun x => decide (x.PromID = 20)) } ] := by
  have hsplit := rulesOf_length_split r 10 20 (by decide)
  simp only [rulesOf] at hsplit
  have hnone : r.filter (fun x => decide (x.PromID ≠ 10 ∧ x.PromID ≠ 20)) = [] := by
    apply List.eq_nil_of_length_eq_zero
    omega
  have hids : ∀ x, x ∈ r → x.PromID = 10 ∨ x.PromID = 20 := by
    intro x hx
    have := (List.filter_eq_nil_iff.mp hnone) x hx
    simp only [ne_eq, decide_eq_true_eq, not_and, not_not] at this
    by_cases hx10 : x.PromID = 10
    · exact Or.inl hx10
    · exact Or.inr (this hx10)
  have hmem := mem_promRules_iff r data h
  have hperm : data.Perm
      [ { Prom := { ID := 10, URL := "" }, Rules := r.filter (fun x => decide (x.PromID = 10)) },
        { Prom := { ID := 20, URL := "" },
          Rules := r.filter (fun x => decide (x.PromID = 20)) } ] := by
    rw [List.perm_ext_iff_of_nodup (promRules_nodup r data h) (by simp)]
    intro p
    rw [hmem p]
    simp only [List.mem_cons, List.mem_singleton, List.not_mem_nil, or_false]
    constructor
    · rintro ⟨hu, hr, hne⟩
      obtain ⟨x, hx⟩ := List.exists_mem_of_ne_nil _ hne
      rw [hr] at hx
      have hxr : x ∈ r := (List.mem_filter.mp hx).1
      have hxid : x.PromID = p.Prom.ID := by
        simpa [rulesOf] using (List.mem_filter.mp hx).2
      obtain ⟨⟨pid, purl⟩, prules⟩ := p
      simp only at hu hr hxid
      subst hu
      rcases hids x hxr with h1 | h1
      · left
        have : pid = 10 := hxid.symm.trans h1
        subst this
        simp [hr, rulesOf]
      · right
        have : pid = 20 := hxid.symm.trans h1
        subst this
        simp [hr, rulesOf]
    · rintro (he | he)
      · subst he
        refine ⟨rfl, rfl, ?_⟩
        intro hnil
        simp only at hnil
        rw [hnil] at h10
        simp at h10
      · subst he
        refine ⟨rfl, rfl, ?_⟩
        intro hnil
        simp only at hnil
        rw [hnil] at h20
        simp at h20
  exact ⟨by simpa using hperm.length_eq, hperm⟩

theorem promRules_two_and_one_witness :
    sampleRules.length = 3 ∧
    (sampleRules.filter (fun x => decide (x.PromID = 10))).length = 2 ∧
    (sampleRules.filter (fun x => decide (x.PromID = 20))).length = 1 ∧
    Rules.PromRules sampleRules sampleData ∧
    sampleData.length = 2 :=
  ⟨by decide, by decide, by decide, by decide,
    (promRules_two_and_one sampleRules sampleData (by decide) (by decide) (by decide)
      (by decide)).1⟩

/-- C15: `PromRules` returns a result on every input, and the zero identifier
is a key like any other: when `r` has a rule with `PromID` 0, every result has
exactly one partition with `Prom.ID = 0`, and the rules of that partition are
exactly the rules of `r` with `PromID` 0, in input order. -/
theorem promRules_zero_id (r : Rules) :
    (∃ data, Rules.PromRules r data) ∧
    ∀ data, Rules.PromRules r data → (∃ x, x ∈ r ∧ x.PromID = 0) →
      data.countP (fun p => decide (p.Prom.ID = 0)) = 1 ∧
      (∃ p, p ∈ data ∧ p.Prom.ID = 0) ∧
      ∀ p, p ∈ data → p.Prom.ID = 0 →
        p.Rules = r.filter (fun x => decide (x.PromID = 0)) := by
  refine ⟨⟨_, promRules_returns r⟩, ?_⟩
  intro data h hex
  obtain ⟨hp, hcount⟩ := promRules_partition_of_id r data h 0 hex
  refine ⟨hcount, ⟨_, hp, rfl⟩, ?_⟩
  intro p hpd hid
  have := ((mem_promRules_iff r data h p).mp hpd).2.1
  rw [this, hid]
  rfl

theorem promRules_zero_id_witness :
    Rules.PromRules sampleRulesZero sampleDataZero ∧
    (∃ x, x ∈ sampleRulesZero ∧ x.PromID = 0) ∧
    sampleDataZero.countP (fun p => decide (p.Prom.ID = 0)) = 1 :=
  ⟨by decide, ⟨sampleRuleZ, by decide, rfl⟩,
    ((promRules_zero_id sampleRulesZero).2 sampleDataZero (by decide)
      ⟨sampleRuleZ, by decide, rfl⟩).1⟩

/-- C16: every partition of every result of `r.PromRules()` has a non-empty
rule sequence, and the result has at most `len(r)` partitions. -/
theorem promRules_partitions_nonempty (r : Rules) (data : List PromRules)
    (h : Rules.PromRules r data) :
    (∀ p, p ∈ data → p.Rules ≠ []) ∧ data.length ≤ r.length := by
  refine ⟨fun p hp => ((mem_promRules_iff r data h p).mp hp).2.2, ?_⟩
  have hperm := promRules_ids_perm r data h
  have hnd : (data.map (fun p => p.Prom.ID)).Nodup :=
    hperm.nodup_iff.mpr (promRulesTmp_inv r).1
  have hsub : data.map (fun p => p.Prom.ID) ⊆ r.map (fun x => x.PromID) := by
    intro id hid
    exact (mem_keys_promRulesTmp_iff r id).mp (hperm.mem_iff.mp hid)
  have := (hnd.subperm hsub).length_le
  simpa using this

theorem promRules_partitions_nonempty_witness :
    Rules.PromRules sampleRules sampleData ∧ sampleData.length ≤ sampleRules.length :=
  ⟨by decide, (promRules_partitions_nonempty sampleRules sampleData (by decide)).2⟩

/-- C17: partitioning a partition again gives it back: for every partition
`p` of every result of `r.PromRules()`, the only result of
`p.Rules.PromRules()` is the one-element sequence `[p]`. -/
theorem promRules_fixed_point (r : Rules) (data : List PromRules) (p : PromRules)
    (h : Rules.PromRules r data) (hp : p ∈ data) (again : List PromRules) :
    Rules.PromRules p.Rules again ↔ again = [p] := by
  obtain ⟨hu, hr, hne⟩ := (mem_promRules_iff r data h p).mp hp
  have hall : ∀ x, x ∈ p.Rules → x.PromID = p.Prom.ID := by
    intro x hx
    rw [hr] at hx
    simpa [rulesOf] using (List.mem_filter.mp hx).2
  have htmp := promRulesTmp_of_same_id p.Rules p.Prom.ID hne hall
  have hone : promRulesData [(p.Prom.ID, p.Rules)] = [p] := by
    obtain ⟨⟨pid, purl⟩, prules⟩ := p
    simp only at hu
    subst hu
    rfl
  rw [promRules_iff, htmp]
  constructor
  · rintro ⟨visit, hperm, rfl⟩
    rw [List.perm_singleton.mp hperm, hone]
  · intro he
    exact ⟨[(p.Prom.ID, p.Rules)], List.Perm.refl _, he.trans hone.symm⟩

theorem promRules_fixed_point_witness :
    Rules.PromRules sampleRules sampleData ∧
    ({ Prom := { ID := 10, URL := "" }, Rules := [sampleRuleA, sampleRuleC] } : PromRules) ∈
      sampleData ∧
    Rules.PromRules [sampleRuleA, sampleRuleC]
      [{ Prom := { ID := 10, URL := "" }, Rules := [sampleRuleA, sampleRuleC] }] :=
  ⟨by decide, by decide,
    (promRules_fixed_point sampleRules sampleData
      { Prom := { ID := 10, URL := "" }, Rules := [sampleRuleA, sampleRuleC] }
      (by decide) (by decide) _).mpr rfl⟩

/-! ## The strings built by `Content` -/

/-- The character of a decimal digit is a digit and spells that digit. -/
theorem digitChar_decimal (m : Nat) (hm : m < 10) :
    (Nat.digitChar m).isDigit = true ∧ (Nat.digitChar m).toNat - '0'.toNat = m := by
  interval_cases m <;> decide

/-- Reading the digits written for `n` in front of `ds` amounts to reading
`ds` from the number `n`. -/
theorem parseDigitsFrom_toDigitsCore (fuel : Nat) :
    ∀ (n : Nat) (ds : List Char), n < fuel →
      parseDigitsFrom 0 (Nat.toDigitsCore 10 fuel n ds) = parseDigitsFrom n ds := by
  induction fuel with
  | zero => intro n ds hn; omega
  | succ fuel ih =>
    intro n ds hn
    have hd := digitChar_decimal (n % 10) (Nat.mod_lt n (by decide))
    by_cases h0 : n / 10 = 0
    · have hlt : n % 10 = n := by omega
      simp only [Nat.toDigitsCore, h0, if_true, parseDigitsFrom, hd.1, hd.2, Nat.zero_mul,
        Nat.zero_add]
      rw [hlt]
    · have hlt : n / 10 < fuel := by omega
      simp only [Nat.toDigitsCore, h0, if_false]
      rw [ih (n / 10) _ hlt]
      simp only [parseDigitsFrom, hd.1, hd.2, if_true]
      congr 1
      omega

theorem parseDigitsFrom_toDigits (n : Nat) :
    parseDigitsFrom 0 (Nat.toDigits 10 n) = some n := by
  rw [Nat.toDigits, parseDigitsFrom_toDigitsCore (n + 1) n [] (Nat.lt_succ_self n)]
  rfl

/-- The digits written for a number start with a decimal digit. -/
theorem toDigits_eq_cons (n : Nat) :
    ∃ c cs, Nat.toDigits 10 n = c :: cs ∧ c.isDigit = true := by
  have h := parseDigitsFrom_toDigits n
  cases hds : Nat.toDigits 10 n with
  | nil =>
    have hlen : (Nat.toDigits 10 n).length = 0 := by rw [hds]; rfl
    have hpos : 0 < (Nat.toDigits 10 n).length := by
      unfold Nat.toDigits
      rw [Nat.toDigitsCore]
      split
      · simp
      · rw [Nat.toDigitsCore_lens_eq]; omega
    omega
  | cons c cs =>
    refine ⟨c, cs, rfl, ?_⟩
    rw [hds] at h
    by_cases hc : c.isDigit = true
    · exact hc
    · simp [parseDigitsFrom, hc] at h

/-- Reading back the decimal string of an integer gives the integer. -/
theorem parseDecimal_FormatInt (i : Int) : parseDecimal (FormatInt i) = some i := by
  by_cases hneg : i < 0
  · obtain ⟨c, cs, hds, _⟩ := toDigits_eq_cons i.natAbs
    have hdata : (FormatInt i).data = '-' :: Nat.toDigits 10 i.natAbs := by
      simp [FormatInt, hneg]
    have hparse := parseDigitsFrom_toDigits i.natAbs
    simp only [parseDecimal, hdata, if_true]
    rw [hds] at hparse ⊢
    simp only [reduceCtorEq, if_false, hparse, Option.map_some', Option.some.injEq]
    omega
  · obtain ⟨c, cs, hds, hc⟩ := toDigits_eq_cons i.toNat
    have hdata : (FormatInt i).data = Nat.toDigits 10 i.toNat := by
      simp [FormatInt, hneg]
    have hparse := parseDigitsFrom_toDigits i.toNat
    have hcm : ¬ c = '-' := by
      intro e; rw [e] at hc; exact absurd hc (by decide)
    simp only [parseDecimal, hdata]
    rw [hds] at hparse ⊢
    simp only [hcm, if_false, hparse, Option.map_some', Option.some.injEq]
    omega

/-- The decimal strings of two integers are equal only for equal integers. -/
theorem FormatInt_injective (a b : Int) (h : FormatInt a = FormatInt b) : a = b := by
  have ha := parseDecimal_FormatInt a
  rw [h, parseDecimal_FormatInt b] at ha
  exact (Option.some.inj ha).symm

/-- The byte length of a concatenation. -/
theorem utf8ByteSize_concat (s t : String) :
    (s ++ t).utf8ByteSize = s.utf8ByteSize + t.utf8ByteSize := by
  obtain ⟨cs⟩ := s
  obtain ⟨ct⟩ := t
  show String.utf8Len (cs ++ ct) = String.utf8Len cs + String.utf8Len ct
  exact String.utf8Len_append cs ct

/-- The expression string in terms of concatenation. -/
theorem Join_three (a b c sep : String) :
    Join [a, b, c] sep = a ++ sep ++ b ++ sep ++ c := rfl

/-- The decimal string of an integer starts with a minus sign exactly when
the integer is negative. -/
theorem FormatInt_head_minus (i : Int) :
    (FormatInt i).data.head? = some '-' ↔ i < 0 := by
  by_cases hneg : i < 0
  · simp [FormatInt, hneg]
  · obtain ⟨c, cs, hds, hc⟩ := toDigits_eq_cons i.toNat
    have hcm : ¬ c = '-' := by
      intro e; rw [e] at hc; exact absurd hc (by decide)
    simp [FormatInt, hneg, hds, hcm]

/-- C18: the alert name identifies the rule: the alert strings that `Content`
builds for two rules (the decimal rendering of the `ID`, with a leading minus
sign exactly for a negative `ID`) are equal exactly when the rules have the
same `ID`, and reading an alert string as a decimal integer gives back the
`ID`. -/
theorem content_alert_identifies (a b : Rule) :
    ∃ sa sb : String,
      M.get (contentRecord a) "alert" = some (Value.str sa) ∧
      M.get (contentRecord b) "alert" = some (Value.str sb) ∧
      (sa = sb ↔ a.ID = b.ID) ∧
      parseDecimal sa = some a.ID ∧
      (sa.data.head? = some '-' ↔ a.ID < 0) :=
  ⟨FormatInt a.ID, FormatInt b.ID, rfl, rfl,
    ⟨FormatInt_injective a.ID b.ID, fun h => by rw [h]⟩,
    parseDecimal_FormatInt a.ID, FormatInt_head_minus a.ID⟩

/-- C19: the expression string does not determine its three components: two
rules with different `Expr`, `Op`, `Value` get the same `expr`; and no
component is skipped when empty: the `expr` of every rule is as long as the
three components together plus the two separating spaces, in bytes and in
characters. -/
theorem content_expr_ambiguous :
    (∃ (a b : Rule) (e : String),
      (a.Expr, a.Op, a.Value) = ("a b", "c", "d") ∧
      (b.Expr, b.Op, b.Value) = ("a", "b", "c d") ∧
      (a.Expr, a.Op, a.Value) ≠ (b.Expr, b.Op, b.Value) ∧
      M.get (contentRecord a) "expr" = some (Value.str e) ∧
      M.get (contentRecord b) "expr" = some (Value.str e)) ∧
    ∀ i : Rule, ∃ e : String,
      M.get (contentRecord i) "expr" = some (Value.str e) ∧
      e.utf8ByteSize =
        i.Expr.utf8ByteSize + i.Op.utf8ByteSize + i.Value.utf8ByteSize + 2 ∧
      e.length = i.Expr.length + i.Op.length + i.Value.length + 2 := by
  constructor
  · refine ⟨{ sampleRuleA with Expr := "a b", Op := "c", Value := "d" },
      { sampleRuleA with Expr := "a", Op := "b", Value := "c d" }, "a b c d", rfl, rfl, by decide, ?_, ?_⟩
    · exact congrArg (fun s => some (Value.str s))
        (by decide : Join ["a b", "c", "d"] " " = "a b c d")
    · exact congrArg (fun s => some (Value.str s))
        (by decide : Join ["a", "b", "c d"] " " = "a b c d")
  · intro i
    refine ⟨Join [i.Expr, i.Op, i.Value] " ", rfl, ?_, ?_⟩
    · rw [Join_three]
      simp only [utf8ByteSize_concat]
      have hsp : (" " : String).utf8ByteSize = 1 := by decide
      omega
    · rw [Join_three]
      simp only [String.length_append]
      have hsp : (" " : String).length = 1 := by decide
      omega
